import Mathlib

/-!
Verification of the matchmaking core of the psyst repository
(src/psyst/matchmaking.py), shallowly embedded in Lean 4.

Python dictionaries that share one fixed ordered key set (the query
dictionaries and the grid of `do_matchmake`) are modelled positionally: a
query becomes a `List ℚ` of values and the grid a `List (List ℚ)` of axes,
both in the shared key order.  numpy floating point values are modelled by
rationals; array accesses that can raise an IndexError return an `Option`.
-/

namespace Psyst

/-- The constant NZERO = 1e-15 of weighted_neighbours. -/
def NZERO : ℚ := 1 / 10 ^ 15

/-- np.abs on one value, written with an explicit test so that it evaluates
on concrete rationals. -/
def rabs (q : ℚ) : ℚ := if q < 0 then -q else q

theorem rabs_eq_abs (q : ℚ) : rabs q = |q| := by
  rw [rabs]
  split_ifs with h
  · rw [abs_of_neg h]
  · rw [abs_of_nonneg (le_of_not_lt h)]

/-- Minimum of the absolute distances between v and the elements of the list
(0 on the empty list, which the code never queries): the minimum of
np.abs(grid[par] - val). -/
def minAbsDist (v : ℚ) : List ℚ → ℚ
  | [] => 0
  | [x] => rabs (x - v)
  | x :: y :: xs =>
    if rabs (x - v) ≤ minAbsDist v (y :: xs) then rabs (x - v)
    else minAbsDist v (y :: xs)

theorem minAbsDist_single (v x : ℚ) : minAbsDist v [x] = |x - v| := by
  simp only [minAbsDist, rabs_eq_abs]

theorem minAbsDist_cons₂ (v x y : ℚ) (xs : List ℚ) :
    minAbsDist v (x :: y :: xs) = min |x - v| (minAbsDist v (y :: xs)) := by
  simp only [minAbsDist, rabs_eq_abs]
  split_ifs with h
  · rw [min_eq_left h]
  · rw [min_eq_right (le_of_not_le h)]

/-- Index of the first element minimising the absolute distance to v: the
value of np.argmin(np.abs(grid[par] - val)), which returns the first
occurrence of the minimum. -/
def argminAbs (v : ℚ) : List ℚ → ℕ
  | [] => 0
  | [_] => 0
  | x :: y :: xs =>
    if rabs (x - v) ≤ minAbsDist v (y :: xs) then 0
    else 1 + argminAbs v (y :: xs)

theorem argminAbs_cons₂ (v x y : ℚ) (xs : List ℚ) :
    argminAbs v (x :: y :: xs) =
      if |x - v| ≤ minAbsDist v (y :: xs) then 0
      else 1 + argminAbs v (y :: xs) := by
  simp only [argminAbs, rabs_eq_abs]

/-- The lower-corner index selected by weighted_neighbours for one axis:
idx = np.argmin(np.abs(grid[par] - val)), then decremented when
val < grid[par][idx].  The result is an integer because the decrement can
produce -1; no clamping is performed. -/
def lowIdx (ax : List ℚ) (v : ℚ) : ℤ :=
  let i := argminAbs v ax
  if v < ax.getD i 0 then (i : ℤ) - 1 else (i : ℤ)

/-- Indexing a one-dimensional numpy array with a Python integer index: a
negative index i with -len ≤ i addresses element len + i; an index outside
the valid range raises an IndexError, modelled as none. -/
def npGet (xs : List ℚ) (i : ℤ) : Option ℚ :=
  if 0 ≤ i then xs[i.toNat]?
  else if 0 ≤ i + xs.length then xs[(i + xs.length).toNat]? else none

/-- All 2^n tuples over 0 and 1, in the order produced by
itertools.product(range(2), repeat=n): the first coordinate varies
slowest. -/
def mesh : ℕ → List (List ℕ)
  | 0 => [[]]
  | n + 1 => (mesh n).map (fun t => 0 :: t) ++ (mesh n).map (fun t => 1 :: t)

/-- One corner of the grid cell: walking the dimensions of the query in
parallel with one row of the mesh, collect the corner coordinates
grid[par][idx_neigh[par] + idx[j]] and the product of the per-dimension
factors, exactly as the inner loop of weighted_neighbours does: with
num = the absolute distance from the query to the corner on this axis and
den = grid[par][idx+1] - grid[par][idx], the factor is 1 when
the absolute value of num/den - 1 is below NZERO, NZERO when the absolute
value of num (not of num/den) is below NZERO, and num/den otherwise.
Any out-of-range array access aborts the whole computation (none), as the
IndexError would. -/
def cornerData : List (ℚ × List ℚ) → List ℕ → Option (List ℚ × ℚ)
  | [], _ => some ([], 1)
  | (v, ax) :: rest, b :: bs => do
    let low := lowIdx ax v
    let corner ← npGet ax (low + b)
    let hi ← npGet ax (low + 1)
    let lo ← npGet ax low
    let num := rabs (v - corner)
    let den := hi - lo
    let f := if rabs (num / den - 1) < NZERO then 1
             else if rabs num < NZERO then NZERO
             else num / den
    let p ← cornerData rest bs
    pure (corner :: p.1, f * p.2)
  | _ :: _, [] => none

/-- Map with an Option-valued function, failing when any element fails. -/
def optMap (f : α → Option β) : List α → Option (List β)
  | [] => some []
  | a :: as => do
    let b ← f a
    let bs ← optMap f as
    pure (b :: bs)

/-- weighted_neighbours: the 2^DIM corners of the cell around the query
(DIM = number of grid axes) with their normalised weights.  The raw weight
of a corner is 1 / (product of its per-dimension factors) and the weights
are then divided by their total.  none models an IndexError escaping the
function. -/
def weighted_neighbours (binary : List ℚ) (grid : List (List ℚ)) :
    Option (List (List ℚ) × List ℚ) := do
  let datas ← optMap (cornerData (binary.zip grid)) (mesh grid.length)
  let neighs := datas.map (fun d => d.1)
  let raws := datas.map (fun d => 1 / d.2)
  pure (neighs, raws.map (fun w => w / raws.sum))

/-- nearest_neighbour: per dimension independently, the grid sample nearest
the query value (first index on ties, as np.argmin), paired with the fixed
weight 1.0 that the function stores in the returned dictionary. -/
def nearest_neighbour (binary : List ℚ) (grid : List (List ℚ)) :
    List ℚ × ℚ :=
  ((binary.zip grid).map (fun p => p.2.getD (argminAbs p.1 p.2) 0), 1)

/-- The per-dimension factor of weighted_neighbours written as a closed-form
total function of the axis data (meaningful when the cell indices are in
range): the second test of the substitution rule is on the unnormalised
absolute distance num, not on num/den. -/
def codeFactor (v : ℚ) (ax : List ℚ) (b : ℕ) : ℚ :=
  let low := (lowIdx ax v).toNat
  let corner := ax.getD (low + b) 0
  let num := rabs (v - corner)
  let den := ax.getD (low + 1) 0 - ax.getD low 0
  if rabs (num / den - 1) < NZERO then 1
  else if rabs num < NZERO then NZERO
  else num / den

/-- The per-dimension factor as the specification words it: with
fracDist = num / den, the factor is 1 when fracDist is within 1e-15 of 1,
1e-15 when the absolute value of FRACDIST is below 1e-15, and fracDist
otherwise.  Written from the spec to be compared against the code. -/
def specFracFactor (v : ℚ) (ax : List ℚ) (b : ℕ) : ℚ :=
  let low := (lowIdx ax v).toNat
  let corner := ax.getD (low + b) 0
  let num := rabs (v - corner)
  let den := ax.getD (low + 1) 0 - ax.getD low 0
  let fracDist := num / den
  if rabs (fracDist - 1) < NZERO then 1
  else if rabs fracDist < NZERO then NZERO
  else fracDist

/-- The dictionary keys transformed to and from log space by do_matchmake. -/
def LOGKEYS : List String := ["m1i", "m2i", "porbi"]

/-- Rounding to 2 decimal digits: the effect of formatting a float with two
decimals and reading it back, as TOLIN does. -/
noncomputable def round2 (x : ℝ) : ℝ := (round (100 * x) : ℤ) / 100

/-- TOLOG on the positive domain, where np.log10 agrees with the real
base-10 logarithm: entries whose key is in LOGKEYS get log10, every other
entry passes through unchanged.  (The behaviour of np.log10 on non-positive
input is modelled separately by TOLOGnp.) -/
noncomputable def TOLOG (binary : List (String × ℝ)) : List (String × ℝ) :=
  binary.map (fun kv => if kv.1 ∈ LOGKEYS then (kv.1, Real.logb 10 kv.2) else kv)

/-- TOLIN: entries whose key is in LOGKEYS get 10 raised to the value,
rounded to 2 decimal digits; every other entry passes through unchanged. -/
noncomputable def TOLIN (binary : List (String × ℝ)) : List (String × ℝ) :=
  binary.map (fun kv =>
    if kv.1 ∈ LOGKEYS then (kv.1, round2 ((10 : ℝ) ^ kv.2)) else kv)

/-- A numpy double as far as np.log10 is concerned: an ordinary real
number, nan, or negative infinity. -/
inductive NpReal where
  | val (x : ℝ)
  | nan
  | neginf

/-- np.log10 as the total function it is: the real logarithm on positive
input, negative infinity at zero, nan on negative input.  It never raises
an exception. -/
noncomputable def npLog10 (x : ℝ) : NpReal :=
  if 0 < x then .val (Real.logb 10 x) else if x = 0 then .neginf else .nan

/-- TOLOG exactly as written: np.log10 applied to the LOGKEYS entries with
no validation and no raise; the function always returns a vector. -/
noncomputable def TOLOGnp (binary : List (String × ℝ)) :
    List (String × NpReal) :=
  binary.map (fun kv =>
    if kv.1 ∈ LOGKEYS then (kv.1, npLog10 kv.2) else (kv.1, .val kv.2))

/-- The value computed for one catalog row by the SQL expression
ABS(c1 - v1)*ABS(c1 - v1) + ...: the sum over matched dimensions of squared
differences between the coordinate and the row. -/
def sqDist (coord row : List ℚ) : ℚ :=
  ((coord.zip row).map (fun p => rabs (p.1 - p.2) * rabs (p.1 - p.2))).sum

/-- The ordering of the SQL query ORDER BY dist DESC: a row comes first
when its squared distance is at least that of the other. -/
def distGE (coord : List ℚ) (a b : String × List ℚ) : Prop :=
  sqDist coord b.2 ≤ sqDist coord a.2

instance (coord : List ℚ) : DecidableRel (distGE coord) :=
  fun a b => inferInstanceAs (Decidable (sqDist coord b.2 ≤ sqDist coord a.2))

instance (coord : List ℚ) : IsTotal (String × List ℚ) (distGE coord) :=
  ⟨fun a b => (le_total (sqDist coord b.2) (sqDist coord a.2)).imp id id⟩

instance (coord : List ℚ) : IsTrans (String × List ℚ) (distGE coord) :=
  ⟨fun _ _ _ hab hbc => le_trans hbc hab⟩

/-- Run resolution as do_matchmake performs it: sort all catalog rows by
squared distance in descending order (ORDER BY dist DESC) and take the last
row (fetchall()[-1]); on an empty catalog the [-1] access fails (none). -/
def resolveClosestRun (coord : List ℚ) (catalog : List (String × List ℚ)) :
    Option String :=
  (List.insertionSort (distGE coord) catalog).getLast?.map (fun row => row.1)

/-- Direct minimum-distance selection, written from the specification: scan
the catalog and keep a row of minimum squared distance. -/
def specResolve (coord : List ℚ) :
    List (String × List ℚ) → Option (String × List ℚ)
  | [] => none
  | row :: rest =>
    match specResolve coord rest with
    | none => some row
    | some best =>
      some (if sqDist coord row.2 ≤ sqDist coord best.2 then row else best)

/-- The index k left behind by the Python accumulation loop
of do_matchmake, which iterates k over the indices of results.run_name and
breaks when run_name equals the string LITERAL "name" (not the loop
variable): k is 0 when run_name is the string "name" and otherwise the loop
runs through, leaving k at the last index. -/
def loopIndex (run : String) (names : List String) : ℕ :=
  if run = "name" then 0 else names.length - 1

/-- One accumulation step of do_matchmake into the parallel lists
results.run_name and results.weight: a fresh run name is appended with its
weight; a known run name has the weight added at the index chosen by
loopIndex. -/
def accumulate (results : List String × List ℚ) (run : String) (w : ℚ) :
    List String × List ℚ :=
  if run ∈ results.1 then
    (results.1, results.2.set (loopIndex run results.1)
      (results.2.getD (loopIndex run results.1) 0 + w))
  else
    (results.1 ++ [run], results.2 ++ [w])

/-! Support lemmas about the nearest-index search. -/

theorem minAbsDist_le (v : ℚ) :
    ∀ (xs : List ℚ) (j : ℕ), j < xs.length → minAbsDist v xs ≤ |xs.getD j 0 - v|
  | [], j, h => absurd h (by simp)
  | [x], 0, _ => by simp [minAbsDist_single]
  | [x], j + 1, h => absurd h (by simp)
  | x :: y :: xs, 0, _ => by
    simp only [minAbsDist_cons₂, List.getD_cons_zero]
    exact min_le_left _ _
  | x :: y :: xs, j + 1, h => by
    have ih := minAbsDist_le v (y :: xs) j (by simpa using h)
    calc minAbsDist v (x :: y :: xs) ≤ minAbsDist v (y :: xs) := by
          rw [minAbsDist_cons₂]
          exact min_le_right _ _
      _ ≤ |(y :: xs).getD j 0 - v| := ih
      _ = |(x :: y :: xs).getD (j + 1) 0 - v| := by simp

theorem le_minAbsDist (v c : ℚ) :
    ∀ (xs : List ℚ), xs ≠ [] → (∀ e ∈ xs, c ≤ |e - v|) → c ≤ minAbsDist v xs
  | [], h, _ => absurd rfl h
  | [x], _, hall => by simpa [minAbsDist_single] using hall x (by simp)
  | x :: y :: xs, _, hall => by
    have h1 : c ≤ |x - v| := hall x (by simp)
    have h2 : c ≤ minAbsDist v (y :: xs) :=
      le_minAbsDist v c (y :: xs) (by simp) (fun e he => hall e (by simp [he]))
    simpa [minAbsDist_cons₂] using le_min h1 h2

theorem argminAbs_lt_length (v : ℚ) :
    ∀ (xs : List ℚ), xs ≠ [] → argminAbs v xs < xs.length
  | [], h => absurd rfl h
  | [x], _ => by simp [argminAbs]
  | x :: y :: xs, _ => by
    by_cases h : |x - v| ≤ minAbsDist v (y :: xs)
    · simp [argminAbs_cons₂, h]
    · have ih := argminAbs_lt_length v (y :: xs) (by simp)
      simp only [List.length_cons] at ih
      simp only [argminAbs_cons₂, if_neg h, List.length_cons]
      omega

theorem getD_argminAbs (v : ℚ) :
    ∀ (xs : List ℚ), xs ≠ [] → |xs.getD (argminAbs v xs) 0 - v| = minAbsDist v xs
  | [], h => absurd rfl h
  | [x], _ => by simp [argminAbs, minAbsDist_single]
  | x :: y :: xs, _ => by
    by_cases h : |x - v| ≤ minAbsDist v (y :: xs)
    · simp [argminAbs_cons₂, minAbsDist_cons₂, h, min_eq_left h]
    · have ih := getD_argminAbs v (y :: xs) (by simp)
      have h2 : minAbsDist v (y :: xs) ≤ |x - v| := le_of_not_le h
      simp only [argminAbs_cons₂, if_neg h, minAbsDist_cons₂,
        Nat.add_comm 1, List.getD_cons_succ]
      rw [ih, min_eq_right h2]

/-- On a strictly ascending axis, a query at or below the first sample has
the first sample as its nearest sample. -/
theorem argminAbs_sorted_low (v : ℚ) :
    ∀ (xs : List ℚ), List.Sorted (· < ·) xs → xs ≠ [] → v ≤ xs.getD 0 0 →
      argminAbs v xs = 0
  | [], _, h, _ => absurd rfl h
  | [x], _, _, _ => by simp [argminAbs]
  | x :: y :: xs, hs, _, hv => by
    have hx : v ≤ x := by simpa using hv
    have hall : ∀ e ∈ y :: xs, |x - v| ≤ |e - v| := by
      intro e he
      have hxe : x < e := (List.sorted_cons.mp hs).1 e he
      have h1 : |x - v| = x - v := abs_of_nonneg (by linarith)
      have h2 : |e - v| = e - v := abs_of_nonneg (by linarith)
      rw [h1, h2]; linarith
    have h : |x - v| ≤ minAbsDist v (y :: xs) :=
      le_minAbsDist v _ (y :: xs) (by simp) hall
    simp [argminAbs_cons₂, h]

/-- On a strictly ascending axis, a query strictly above the last sample has
the last sample (index length - 1) as its nearest sample. -/
theorem argminAbs_sorted_high (v : ℚ) :
    ∀ (xs : List ℚ), List.Sorted (· < ·) xs → xs ≠ [] →
      xs.getD (xs.length - 1) 0 < v → argminAbs v xs = xs.length - 1
  | [], _, h, _ => absurd rfl h
  | [x], _, _, _ => by simp [argminAbs]
  | x :: y :: xs, hs, _, hv => by
    have hlast : (y :: xs).getD ((y :: xs).length - 1) 0 < v := by
      simpa using hv
    have hmem : (y :: xs).getD ((y :: xs).length - 1) 0 ∈ y :: xs := by
      have : (y :: xs).length - 1 < (y :: xs).length := by simp
      rw [List.getD_eq_getElem _ 0 this]
      exact List.getElem_mem this
    have hxl : x < (y :: xs).getD ((y :: xs).length - 1) 0 :=
      (List.sorted_cons.mp hs).1 _ hmem
    have hmin : minAbsDist v (y :: xs) ≤ |(y :: xs).getD ((y :: xs).length - 1) 0 - v| :=
      minAbsDist_le v (y :: xs) _ (by simp)
    have habs : |(y :: xs).getD ((y :: xs).length - 1) 0 - v| <
        |x - v| := by
      have h1 : |(y :: xs).getD ((y :: xs).length - 1) 0 - v| =
          v - (y :: xs).getD ((y :: xs).length - 1) 0 := by
        rw [abs_sub_comm]; exact abs_of_pos (by linarith)
      have h2 : |x - v| = v - x := by
        rw [abs_sub_comm]; exact abs_of_pos (by linarith)
      rw [h1, h2]; linarith
    have h : ¬ |x - v| ≤ minAbsDist v (y :: xs) := by
      intro hc
      exact absurd (lt_of_lt_of_le habs (le_trans hc hmin)) (lt_irrefl _)
    have ih := argminAbs_sorted_high v (y :: xs) (List.sorted_cons.mp hs).2
      (by simp) hlast
    simp only [argminAbs_cons₂, if_neg h, ih, List.length_cons]
    omega

/-! Support lemmas about Python array indexing. -/

theorem npGet_of_nonneg (xs : List ℚ) (i : ℤ) (h0 : 0 ≤ i)
    (hlt : i.toNat < xs.length) : npGet xs i = some (xs.getD i.toNat 0) := by
  rw [npGet, if_pos h0, List.getElem?_eq_getElem hlt,
    List.getD_eq_getElem xs 0 hlt]

theorem npGet_neg_one (xs : List ℚ) (hne : xs ≠ []) :
    npGet xs (-1) = some (xs.getD (xs.length - 1) 0) := by
  have hlen : 1 ≤ xs.length := by
    cases xs with
    | nil => exact absurd rfl hne
    | cons a t => simp
  have h0 : ¬ (0 : ℤ) ≤ -1 := by decide
  have h1 : (0 : ℤ) ≤ -1 + xs.length := by omega
  have h2 : ((-1 : ℤ) + xs.length).toNat = xs.length - 1 := by omega
  have h3 : xs.length - 1 < xs.length := by omega
  rw [npGet, if_neg h0, if_pos h1, h2, List.getElem?_eq_getElem h3,
    List.getD_eq_getElem xs 0 h3]

theorem npGet_of_ge_length (xs : List ℚ) (i : ℤ) (h : (xs.length : ℤ) ≤ i) :
    npGet xs i = none := by
  have h0 : (0 : ℤ) ≤ i := le_trans (by positivity) h
  have h1 : xs.length ≤ i.toNat := by omega
  rw [npGet, if_pos h0, List.getElem?_eq_none h1]

/-! Support lemmas about the lower-corner index. -/

/-- A query strictly below the first sample of an ascending axis gets the
lower-corner index -1: the nearest sample has index 0 and the decrement
fires. -/
theorem lowIdx_below (ax : List ℚ) (v : ℚ) (hs : List.Sorted (· < ·) ax)
    (hne : ax ≠ []) (hv : v < ax.getD 0 0) : lowIdx ax v = -1 := by
  rw [lowIdx, argminAbs_sorted_low v ax hs hne (le_of_lt hv)]
  simp only [if_pos hv]
  norm_num

/-- A query strictly above the last sample of an ascending axis gets the
lower-corner index length - 1: the nearest sample is the last one and the
decrement does not fire. -/
theorem lowIdx_above (ax : List ℚ) (v : ℚ) (hs : List.Sorted (· < ·) ax)
    (hne : ax ≠ []) (hv : ax.getD (ax.length - 1) 0 < v) :
    lowIdx ax v = (ax.length : ℤ) - 1 := by
  have hlen : 1 ≤ ax.length := by
    cases ax with
    | nil => exact absurd rfl hne
    | cons a t => simp
  rw [lowIdx, argminAbs_sorted_high v ax hs hne hv]
  have hnotlt : ¬ v < ax.getD (ax.length - 1) 0 := not_lt.mpr (le_of_lt hv)
  simp only [if_neg hnotlt]
  omega

/-! Support lemmas about the corner mesh and the Option-valued map. -/

theorem mesh_length (n : ℕ) : (mesh n).length = 2 ^ n := by
  induction n with
  | zero => rfl
  | succ n ih => simp [mesh, ih, pow_succ, Nat.mul_two]

theorem mesh_mem (n : ℕ) :
    ∀ idx ∈ mesh n, idx.length = n ∧ ∀ b ∈ idx, b ≤ 1 := by
  induction n with
  | zero =>
    intro idx h
    simp only [mesh, List.mem_singleton] at h
    simp [h]
  | succ n ih =>
    intro idx h
    simp only [mesh, List.mem_append, List.mem_map] at h
    rcases h with ⟨t, ht, rfl⟩ | ⟨t, ht, rfl⟩ <;>
      obtain ⟨hl, hb⟩ := ih t ht <;>
      refine ⟨by simp [hl], ?_⟩ <;>
      intro b hb2 <;>
      rcases List.mem_cons.mp hb2 with rfl | h2 <;>
      first
        | omega
        | exact hb b h2

theorem optMap_forall {α β : Type} (f : α → Option β) (P : β → Prop) :
    ∀ (l : List α), (∀ a ∈ l, ∃ b, f a = some b ∧ P b) →
      ∃ bs, optMap f l = some bs ∧ bs.length = l.length ∧ ∀ b ∈ bs, P b
  | [], _ => ⟨[], rfl, rfl, by simp⟩
  | a :: as, h => by
    obtain ⟨b, hb, hPb⟩ := h a (by simp)
    obtain ⟨bs, hbs, hlen, hall⟩ :=
      optMap_forall f P as (fun x hx => h x (by simp [hx]))
    refine ⟨b :: bs, ?_, by simp [hlen], ?_⟩
    · simp [optMap, hb, hbs]
    · intro c hc
      rcases List.mem_cons.mp hc with rfl | h2
      · exact hPb
      · exact hall c h2

theorem optMap_eq_none_of_mem {α β : Type} {f : α → Option β} :
    ∀ {l : List α} {a : α}, a ∈ l → f a = none → optMap f l = none := by
  intro l
  induction l with
  | nil => intro a ha; simp at ha
  | cons x xs ih =>
    intro a ha hfa
    rcases List.mem_cons.mp ha with rfl | h2
    · simp [optMap, hfa]
    · cases hx : f x with
      | none => simp [optMap, hx]
      | some b => simp [optMap, hx, ih h2 hfa]

/-! Correspondence between the monadic corner walk and its closed form. -/

theorem codeFactor_pos (v : ℚ) (ax : List ℚ) (b : ℕ)
    (hs : List.Sorted (· < ·) ax) (h0 : 0 ≤ lowIdx ax v)
    (h1 : lowIdx ax v + 1 < (ax.length : ℤ)) : 0 < codeFactor v ax b := by
  have hlow1 : (lowIdx ax v).toNat + 1 < ax.length := by omega
  have hlow0 : (lowIdx ax v).toNat < ax.length := by omega
  have hden : ax.getD ((lowIdx ax v).toNat) 0 <
      ax.getD ((lowIdx ax v).toNat + 1) 0 := by
    rw [List.getD_eq_getElem ax 0 hlow0, List.getD_eq_getElem ax 0 hlow1]
    exact List.pairwise_iff_get.mp hs ⟨_, hlow0⟩ ⟨_, hlow1⟩ (by simp)
  simp only [codeFactor, rabs_eq_abs]
  split_ifs with hA hB
  · norm_num
  · rw [NZERO]; positivity
  · have hnum : NZERO ≤ |(|v - ax.getD ((lowIdx ax v).toNat + b) 0|)| :=
      le_of_not_lt hB
    rw [abs_abs] at hnum
    have hNZ : (0 : ℚ) < NZERO := by rw [NZERO]; positivity
    exact div_pos (lt_of_lt_of_le hNZ hnum) (by linarith)

theorem cornerData_eq :
    ∀ (pairs : List (ℚ × List ℚ)) (idx : List ℕ),
      (∀ p ∈ pairs, List.Sorted (· < ·) p.2 ∧ 0 ≤ lowIdx p.2 p.1 ∧
        lowIdx p.2 p.1 + 1 < (p.2.length : ℤ)) →
      idx.length = pairs.length → (∀ b ∈ idx, b ≤ 1) →
      cornerData pairs idx =
        some ((pairs.zip idx).map
            (fun q => q.1.2.getD ((lowIdx q.1.2 q.1.1).toNat + q.2) 0),
          ((pairs.zip idx).map (fun q => codeFactor q.1.1 q.1.2 q.2)).prod)
  | [], [], _, _, _ => by simp [cornerData]
  | [], b :: bs, _, hlen, _ => by simp at hlen
  | p :: rest, [], _, hlen, _ => by simp at hlen
  | (v, ax) :: rest, b :: bs, hax, hlen, hbits => by
    obtain ⟨hs, h0, h1⟩ := hax (v, ax) (by simp)
    dsimp only at hs h0 h1
    have hb : b ≤ 1 := hbits b (by simp)
    have hcb : ((lowIdx ax v) + b).toNat = (lowIdx ax v).toNat + b := by omega
    have hc1 : ((lowIdx ax v) + 1).toNat = (lowIdx ax v).toNat + 1 := by omega
    have hltb : ((lowIdx ax v) + b).toNat < ax.length := by omega
    have hlt1 : ((lowIdx ax v) + 1).toNat < ax.length := by omega
    have hlt0 : (lowIdx ax v).toNat < ax.length := by omega
    have hcorner := npGet_of_nonneg ax (lowIdx ax v + b) (by omega) hltb
    have hhi := npGet_of_nonneg ax (lowIdx ax v + 1) (by omega) hlt1
    have hlo := npGet_of_nonneg ax (lowIdx ax v) (by omega) hlt0
    rw [hcb] at hcorner
    rw [hc1] at hhi
    have ih := cornerData_eq rest bs
      (fun q hq => hax q (by simp [hq]))
      (by simpa using hlen)
      (fun q hq => hbits q (by simp [hq]))
    simp only [cornerData, hcorner, hhi, hlo, ih, Option.bind_some,
      Option.some_bind, List.zip_cons_cons, List.map_cons, List.prod_cons]
    simp [codeFactor]

theorem sum_map_div (l : List ℚ) (c : ℚ) :
    (l.map (fun x => x / c)).sum = l.sum / c := by
  induction l with
  | nil => simp
  | cons a t ih => simp [ih, add_div]

/-! The claims. -/

/-- Claim C2: for every query vector and every grid with D matched
dimensions (each axis strictly ascending, the selected cell indices in
range), the weighted multilinear strategy returns exactly 2^D neighbours
whose normalised weights sum to 1.0 (hence within 1e-9 of it), each weight
lying in the interval from 0 to 1. -/
theorem weighted_neighbours_partition (binary : List ℚ) (grid : List (List ℚ))
    (hlen : binary.length = grid.length)
    (hax : ∀ p ∈ binary.zip grid, List.Sorted (· < ·) p.2 ∧
      0 ≤ lowIdx p.2 p.1 ∧ lowIdx p.2 p.1 + 1 < (p.2.length : ℤ)) :
    ∃ neighs weights,
      weighted_neighbours binary grid = some (neighs, weights) ∧
      neighs.length = 2 ^ grid.length ∧ weights.length = 2 ^ grid.length ∧
      weights.sum = 1 ∧ |weights.sum - 1| < 1 / 10 ^ 9 ∧
      ∀ w ∈ weights, 0 ≤ w ∧ w ≤ 1 := by
  have hplen : (binary.zip grid).length = grid.length := by
    simp [hlen]
  have hmesh : ∀ idx ∈ mesh grid.length,
      ∃ d, cornerData (binary.zip grid) idx = some d ∧ 0 < d.2 := by
    intro idx hidx
    obtain ⟨hidxlen, hbits⟩ := mesh_mem _ idx hidx
    refine ⟨_, cornerData_eq (binary.zip grid) idx hax
      (hidxlen.trans hplen.symm) hbits, ?_⟩
    dsimp only
    apply List.prod_pos
    intro f hf
    obtain ⟨q, hq, rfl⟩ := List.mem_map.mp hf
    obtain ⟨hs, h0, h1⟩ := hax q.1 (List.of_mem_zip hq).1
    exact codeFactor_pos q.1.1 q.1.2 q.2 hs h0 h1
  obtain ⟨datas, hdatas, hdlen, hdpos⟩ :=
    optMap_forall (cornerData (binary.zip grid)) (fun d => 0 < d.2)
      (mesh grid.length) hmesh
  have hraws_pos : ∀ r ∈ datas.map (fun d => 1 / d.2), 0 < r := by
    intro r hr
    obtain ⟨d, hd, rfl⟩ := List.mem_map.mp hr
    exact one_div_pos.mpr (hdpos d hd)
  have hrawslen : (datas.map (fun d => 1 / d.2)).length = 2 ^ grid.length := by
    simp [hdlen, mesh_length]
  have hrne : (datas.map (fun d => 1 / d.2)) ≠ [] := by
    apply List.length_pos.mp
    rw [hrawslen]
    positivity
  have hsum : 0 < (datas.map (fun d => 1 / d.2)).sum :=
    List.sum_pos _ hraws_pos hrne
  refine ⟨datas.map (fun d => d.1),
    (datas.map (fun d => 1 / d.2)).map
      (fun w => w / (datas.map (fun d => 1 / d.2)).sum),
    ?_, ?_, ?_, ?_, ?_, ?_⟩
  · simp [weighted_neighbours, hdatas]
  · simp [hdlen, mesh_length]
  · simp [hdlen, mesh_length]
  · rw [sum_map_div]
    exact div_self (ne_of_gt hsum)
  · rw [sum_map_div, div_self (ne_of_gt hsum)]
    norm_num
  · intro w hw
    obtain ⟨r, hr, rfl⟩ := List.mem_map.mp hw
    have hrpos := hraws_pos r hr
    refine ⟨le_of_lt (div_pos hrpos hsum), ?_⟩
    rw [div_le_one hsum]
    exact List.single_le_sum (fun x hx => le_of_lt (hraws_pos x hx)) r hr

/-- Witness for claim C2, on the concrete scenario of the specification:
grid x = 1, 2, 3 and y = 10, 20, 30, query x = 2.5 and y = 15. -/
theorem weighted_neighbours_partition_witness :
    (([5 / 2, 15] : List ℚ).length =
      ([[1, 2, 3], [10, 20, 30]] : List (List ℚ)).length) ∧
    (∀ p ∈ ([5 / 2, 15] : List ℚ).zip [[1, 2, 3], [10, 20, 30]],
      List.Sorted (· < ·) p.2 ∧ 0 ≤ lowIdx p.2 p.1 ∧
      lowIdx p.2 p.1 + 1 < (p.2.length : ℤ)) ∧
    ∃ neighs weights,
      weighted_neighbours [5 / 2, 15] [[1, 2, 3], [10, 20, 30]] =
        some (neighs, weights) ∧
      neighs.length = 2 ^ ([[1, 2, 3], [10, 20, 30]] : List (List ℚ)).length ∧
      weights.length = 2 ^ ([[1, 2, 3], [10, 20, 30]] : List (List ℚ)).length ∧
      weights.sum = 1 ∧ |weights.sum - 1| < 1 / 10 ^ 9 ∧
      ∀ w ∈ weights, 0 ≤ w ∧ w ≤ 1 :=
  ⟨by norm_num, by norm_num [List.sorted_cons, lowIdx, argminAbs, minAbsDist, rabs],
    weighted_neighbours_partition [5 / 2, 15] [[1, 2, 3], [10, 20, 30]]
      (by norm_num)
      (by norm_num [List.sorted_cons, lowIdx, argminAbs, minAbsDist, rabs])⟩

/-- Claim C3, amended: for every corner, the product accumulated by the
corner walk of weighted_neighbours is the product over the dimensions of the
per-dimension factor given by the substitution rule with the second test on
the UNNORMALISED absolute distance num (not on fracDist = num / den): the
factor is 1 when num / den is within 1e-15 of 1, 1e-15 when num itself is
smaller than 1e-15, and num / den otherwise.  The corner's raw weight is
then 1 divided by this product (the raws of weighted_neighbours). -/
theorem factor_substitution_rule (binary : List ℚ) (grid : List (List ℚ))
    (idx : List ℕ)
    (hax : ∀ p ∈ binary.zip grid, List.Sorted (· < ·) p.2 ∧
      0 ≤ lowIdx p.2 p.1 ∧ lowIdx p.2 p.1 + 1 < (p.2.length : ℤ))
    (hlen : idx.length = (binary.zip grid).length)
    (hbits : ∀ b ∈ idx, b ≤ 1) :
    ∃ corners,
      cornerData (binary.zip grid) idx = some (corners,
        (((binary.zip grid).zip idx).map (fun q =>
          let low := (lowIdx q.1.2 q.1.1).toNat
          let num := rabs (q.1.1 - q.1.2.getD (low + q.2) 0)
          let den := q.1.2.getD (low + 1) 0 - q.1.2.getD low 0
          if rabs (num / den - 1) < NZERO then 1
          else if rabs num < NZERO then NZERO
          else num / den)).prod) :=
  ⟨_, cornerData_eq (binary.zip grid) idx hax hlen hbits⟩

/-- Witness for claim C3 on the concrete scenario of the specification,
corner index (0, 1). -/
theorem factor_substitution_rule_witness :
    (∀ p ∈ ([5 / 2, 15] : List ℚ).zip [[1, 2, 3], [10, 20, 30]],
      List.Sorted (· < ·) p.2 ∧ 0 ≤ lowIdx p.2 p.1 ∧
      lowIdx p.2 p.1 + 1 < (p.2.length : ℤ)) ∧
    ([0, 1] : List ℕ).length =
      (([5 / 2, 15] : List ℚ).zip [[1, 2, 3], [10, 20, 30]]).length ∧
    (∀ b ∈ ([0, 1] : List ℕ), b ≤ 1) ∧
    ∃ corners,
      cornerData (([5 / 2, 15] : List ℚ).zip [[1, 2, 3], [10, 20, 30]])
          [0, 1] = some (corners,
        (((([5 / 2, 15] : List ℚ).zip [[1, 2, 3], [10, 20, 30]]).zip
            ([0, 1] : List ℕ)).map (fun q =>
          let low := (lowIdx q.1.2 q.1.1).toNat
          let num := rabs (q.1.1 - q.1.2.getD (low + q.2) 0)
          let den := q.1.2.getD (low + 1) 0 - q.1.2.getD low 0
          if rabs (num / den - 1) < NZERO then 1
          else if rabs num < NZERO then NZERO
          else num / den)).prod) :=
  ⟨by norm_num [List.sorted_cons, lowIdx, argminAbs, minAbsDist, rabs],
    by norm_num, by norm_num,
    factor_substitution_rule [5 / 2, 15] [[1, 2, 3], [10, 20, 30]] [0, 1]
      (by norm_num [List.sorted_cons, lowIdx, argminAbs, minAbsDist, rabs])
      (by norm_num) (by norm_num)⟩

/-- Counterexample to claim C3 as stated: on the axis 0, 4 with query value
2e-15 and corner index 0, the code computes the factor num / den =
1 / (2 * 10^15) because num = 2e-15 is not below the 1e-15 threshold,
whereas the rule worded by the specification tests fracDist = num / den =
5e-16, which IS below 1e-15, and would substitute the factor 1e-15. -/
theorem factor_substitution_rule_counterexample :
    cornerData [(2 / 10 ^ 15, [0, 4])] [0] =
      some ([0], 1 / (2 * 10 ^ 15)) ∧
    specFracFactor (2 / 10 ^ 15) [0, 4] 0 = 1 / 10 ^ 15 ∧
    ((1 : ℚ) / (2 * 10 ^ 15)) ≠ 1 / 10 ^ 15 := by
  refine ⟨?_, ?_, ?_⟩
  · norm_num [cornerData, lowIdx, argminAbs, minAbsDist, rabs, npGet, NZERO]
  · norm_num [specFracFactor, lowIdx, argminAbs, minAbsDist, rabs, NZERO]
  · norm_num

/-- Claim C1: evaluation of the accumulation step of do_matchmake at a
failing input.  With accumulated entries A with weight 1 and B with
weight 0, folding the pair (A, 5) adds the weight at the index left by the
broken lookup loop (which compares run_name against the string literal
"name" and therefore never breaks), namely the LAST index: B receives the
5 units that belong to A, contradicting the claim that only the entry of
the same run identifier changes. -/
theorem accumulate_misattributes_weight :
    accumulate (["A", "B"], [1, 0]) "A" 5 = (["A", "B"], [1, 5]) ∧
    ([1, 5] : List ℚ) ≠ [6, 0] := by
  have hne : ("A" = "name") = False := by
    simp only [eq_iff_iff, iff_false]
    decide
  refine ⟨?_, by norm_num⟩
  norm_num [accumulate, loopIndex, hne]

/-- Claim C4: evaluation of the lower-corner index selection at a failing
input.  On the two-sample axis 1, 2 a query at 3 keeps index 1 = length - 1,
outside the range from 0 to length - 2 claimed by the specification (no
clamp is performed), and the access to axis[index + 1] then raises, so the
whole weighted strategy fails on this input. -/
theorem lowIdx_not_clamped :
    lowIdx [1, 2] 3 = 1 ∧
    ¬ lowIdx [1, 2] 3 ≤ (([1, 2] : List ℚ).length : ℤ) - 2 ∧
    npGet [1, 2] (lowIdx [1, 2] 3 + 1) = none ∧
    weighted_neighbours [3] [[1, 2]] = none := by
  refine ⟨?_, ?_, ?_, ?_⟩
  · norm_num [lowIdx, argminAbs, minAbsDist, rabs]
  · norm_num [lowIdx, argminAbs, minAbsDist, rabs]
  · norm_num [npGet, lowIdx, argminAbs, minAbsDist, rabs]
  · have hoob : ([1, 2] : List ℚ)[Int.toNat 2]? = none := rfl
    norm_num [weighted_neighbours, optMap, cornerData, mesh, npGet,
      lowIdx, argminAbs, minAbsDist, rabs, hoob]

/-- Claim C9: the nearest-point strategy returns a single neighbour whose
weight is exactly 1.0 and whose coordinate on each axis is a grid sample of
that axis minimising the absolute difference from the query value on that
axis, independently of the other axes. -/
theorem nearest_neighbour_weight_one_min (binary : List ℚ)
    (grid : List (List ℚ))
    (hax : ∀ p ∈ binary.zip grid, p.2 ≠ []) :
    (nearest_neighbour binary grid).2 = 1 ∧
    List.Forall₂ (fun p c => c ∈ p.2 ∧ ∀ j, j < p.2.length →
        |c - p.1| ≤ |p.2.getD j 0 - p.1|)
      (binary.zip grid) (nearest_neighbour binary grid).1 := by
  refine ⟨rfl, ?_⟩
  rw [nearest_neighbour]
  rw [List.forall₂_map_right_iff, List.forall₂_same]
  intro p hp
  have hne := hax p hp
  constructor
  · have hlt := argminAbs_lt_length p.1 p.2 hne
    rw [List.getD_eq_getElem p.2 0 hlt]
    exact List.getElem_mem hlt
  · intro j hj
    rw [getD_argminAbs p.1 p.2 hne]
    exact minAbsDist_le p.1 p.2 j hj

/-- Witness for claim C9 on the concrete scenario of the specification. -/
theorem nearest_neighbour_weight_one_min_witness :
    (∀ p ∈ ([5 / 2, 15] : List ℚ).zip [[1, 2, 3], [10, 20, 30]],
      p.2 ≠ []) ∧
    (nearest_neighbour [5 / 2, 15] [[1, 2, 3], [10, 20, 30]]).2 = 1 ∧
    List.Forall₂ (fun p c => c ∈ p.2 ∧ ∀ j, j < p.2.length →
        |c - p.1| ≤ |p.2.getD j 0 - p.1|)
      (([5 / 2, 15] : List ℚ).zip [[1, 2, 3], [10, 20, 30]])
      (nearest_neighbour [5 / 2, 15] [[1, 2, 3], [10, 20, 30]]).1 :=
  ⟨by simp,
    nearest_neighbour_weight_one_min [5 / 2, 15] [[1, 2, 3], [10, 20, 30]]
      (by simp)⟩

/-- Claim C10: out-of-range queries in the weighted strategy behave
asymmetrically.  Below the grid the lower-corner index becomes -1, Python
negative indexing silently selects the LAST (largest) sample as the lower
cell corner and the strategy returns a result without error; above the
grid the index stays at length - 1 and the access to axis[index + 1] is
out of bounds, so the strategy fails. -/
theorem weighted_out_of_range_asymmetry :
    (∀ (ax : List ℚ) (v : ℚ), List.Sorted (· < ·) ax → 2 ≤ ax.length →
      v < ax.getD 0 0 →
      lowIdx ax v = -1 ∧
      npGet ax (lowIdx ax v) = some (ax.getD (ax.length - 1) 0) ∧
      ∃ out, weighted_neighbours [v] [ax] = some out ∧
        out.1.getD 0 [] = [ax.getD (ax.length - 1) 0]) ∧
    (∀ (ax : List ℚ) (v : ℚ), List.Sorted (· < ·) ax → 2 ≤ ax.length →
      ax.getD (ax.length - 1) 0 < v →
      lowIdx ax v = (ax.length : ℤ) - 1 ∧
      weighted_neighbours [v] [ax] = none) := by
  constructor
  · intro ax v hs hlen hv
    have hne : ax ≠ [] := by
      intro h
      rw [h] at hlen
      simp at hlen
    have hl := lowIdx_below ax v hs hne hv
    have hlo2 : npGet ax (lowIdx ax v) = some (ax.getD (ax.length - 1) 0) := by
      rw [hl]
      exact npGet_neg_one ax hne
    have hhi2 : npGet ax (lowIdx ax v + 1) = some (ax.getD 0 0) := by
      rw [hl]
      have h01 : (-1 : ℤ) + 1 = 0 := by norm_num
      rw [h01]
      have := npGet_of_nonneg ax 0 le_rfl (by omega)
      simpa using this
    refine ⟨hl, hlo2, ?_⟩
    simp only [weighted_neighbours, mesh, optMap, cornerData,
      List.zip_cons_cons, List.zip_nil_right, List.length_singleton,
      List.map_nil, List.map_cons, List.nil_append, List.cons_append,
      Nat.cast_zero, Nat.cast_one, add_zero, hlo2, hhi2,
      Option.some_bind, Option.bind_some]
    exact ⟨_, rfl, rfl⟩
  · intro ax v hs hlen hv
    have hne : ax ≠ [] := by
      intro h
      rw [h] at hlen
      simp at hlen
    have hl := lowIdx_above ax v hs hne hv
    have hcorner : npGet ax (lowIdx ax v) =
        some (ax.getD (ax.length - 1) 0) := by
      rw [hl]
      have h0 : (0 : ℤ) ≤ (ax.length : ℤ) - 1 := by omega
      have ht : ((ax.length : ℤ) - 1).toNat = ax.length - 1 := by omega
      have := npGet_of_nonneg ax ((ax.length : ℤ) - 1) h0 (by omega)
      rwa [ht] at this
    have hfail : npGet ax (lowIdx ax v + 1) = none := by
      rw [hl]
      apply npGet_of_ge_length
      omega
    have hc0 : cornerData ([v].zip [ax]) [0] = none := by
      simp [cornerData, hcorner, hfail]
    have hmem : ([0] : List ℕ) ∈ mesh 1 := by
      norm_num [mesh]
    have hnone := optMap_eq_none_of_mem hmem hc0
    have hnone2 : optMap (cornerData [(v, ax)]) (mesh 1) = none := by
      simpa using hnone
    refine ⟨hl, ?_⟩
    simp [weighted_neighbours, hnone2]

/-- Witness for claim C10, on the axis with samples 0 and 1: a query at -1
(below the grid) gets corner index -1 and succeeds with the last sample 1
as lower corner; a query at 2 (above the grid) fails. -/
theorem weighted_out_of_range_asymmetry_witness :
    (lowIdx [0, 1] (-1) = -1 ∧
      npGet [0, 1] (lowIdx [0, 1] (-1)) =
        some (([0, 1] : List ℚ).getD (([0, 1] : List ℚ).length - 1) 0) ∧
      ∃ out, weighted_neighbours [-1] [[0, 1]] = some out ∧
        out.1.getD 0 [] =
          [([0, 1] : List ℚ).getD (([0, 1] : List ℚ).length - 1) 0]) ∧
    (lowIdx [0, 1] 2 = ((([0, 1] : List ℚ).length : ℤ)) - 1 ∧
      weighted_neighbours [2] [[0, 1]] = none) :=
  ⟨weighted_out_of_range_asymmetry.1 [0, 1] (-1)
      (by norm_num [List.sorted_cons]) (by norm_num) (by norm_num),
    weighted_out_of_range_asymmetry.2 [0, 1] 2
      (by norm_num [List.sorted_cons]) (by norm_num) (by norm_num)⟩

/-! Support lemmas about the descending sort of the run resolver. -/

theorem sorted_getLast?_or {α : Type} {r : α → α → Prop} :
    ∀ (l : List α), List.Sorted r l → ∀ x ∈ l, ∀ y, l.getLast? = some y →
      x = y ∨ r x y
  | [], _, x, hx, _, _ => absurd hx (by simp)
  | [a], _, x, hx, y, hy => by
    left
    simp only [List.mem_singleton] at hx
    simp only [List.getLast?_singleton, Option.some.injEq] at hy
    rw [hx, hy]
  | a :: b :: t, hs, x, hx, y, hy => by
    rw [List.getLast?_cons_cons] at hy
    have hne2 : b :: t ≠ [] := by simp
    have hymem : y ∈ b :: t := by
      rw [List.getLast?_eq_getLast_of_ne_nil hne2, Option.some.injEq] at hy
      rw [← hy]
      exact List.getLast_mem hne2
    rcases List.mem_cons.mp hx with rfl | hx2
    · right
      exact (List.sorted_cons.mp hs).1 y hymem
    · exact sorted_getLast?_or (b :: t) (List.sorted_cons.mp hs).2 x hx2 y hy

theorem specResolve_cons (coord : List ℚ) (row : String × List ℚ)
    (rest : List (String × List ℚ)) :
    specResolve coord (row :: rest) = match specResolve coord rest with
      | none => some row
      | some best =>
        some (if sqDist coord row.2 ≤ sqDist coord best.2 then row
          else best) := rfl

theorem specResolve_min (coord : List ℚ) :
    ∀ (catalog : List (String × List ℚ)), catalog ≠ [] →
      ∃ best, specResolve coord catalog = some best ∧ best ∈ catalog ∧
        ∀ other ∈ catalog, sqDist coord best.2 ≤ sqDist coord other.2
  | [], h => absurd rfl h
  | [row], _ => by
    refine ⟨row, by simp [specResolve], by simp, ?_⟩
    intro other hother
    simp only [List.mem_singleton] at hother
    rw [hother]
  | row :: r2 :: t, _ => by
    obtain ⟨best, hbest, hmem, hmin⟩ := specResolve_min coord (r2 :: t) (by simp)
    by_cases hc : sqDist coord row.2 ≤ sqDist coord best.2
    · refine ⟨row, ?_, by simp, ?_⟩
      · rw [specResolve_cons, hbest]
        simp [hc]
      · intro other hother
        rcases List.mem_cons.mp hother with rfl | h2
        · exact le_refl _
        · exact le_trans hc (hmin other h2)
    · refine ⟨best, ?_, List.mem_cons.mpr (Or.inr hmem), ?_⟩
      · rw [specResolve_cons, hbest]
        simp [hc]
      · intro other hother
        rcases List.mem_cons.mp hother with rfl | h2
        · exact le_of_not_le hc
        · exact hmin other h2

/-- Claim C5: for every coordinate and non-empty catalog, sorting all rows
by total squared distance in descending order and taking the LAST row
returns the identifier of a row of minimal squared distance, and that
distance agrees with the one found by a direct minimum-distance scan
(specResolve): the sort-then-last mechanism refines direct minimum
selection. -/
theorem resolve_descending_sort_is_min (coord : List ℚ)
    (catalog : List (String × List ℚ)) (hne : catalog ≠ []) :
    ∃ row, row ∈ catalog ∧ resolveClosestRun coord catalog = some row.1 ∧
      (∀ other ∈ catalog, sqDist coord row.2 ≤ sqDist coord other.2) ∧
      ∃ best, specResolve coord catalog = some best ∧
        sqDist coord row.2 = sqDist coord best.2 := by
  have hperm := List.perm_insertionSort (distGE coord) catalog
  have hsne : List.insertionSort (distGE coord) catalog ≠ [] := by
    intro h
    rw [h] at hperm
    exact hne hperm.symm.eq_nil
  have hsorted := List.sorted_insertionSort (distGE coord) catalog
  have hlast := List.getLast?_eq_getLast_of_ne_nil hsne
  have hmemsort :=
    List.getLast_mem hsne
  have hmemcat : (List.insertionSort (distGE coord) catalog).getLast hsne ∈
      catalog := hperm.mem_iff.mp hmemsort
  have hmin : ∀ other ∈ catalog,
      sqDist coord ((List.insertionSort (distGE coord) catalog).getLast
        hsne).2 ≤ sqDist coord other.2 := by
    intro other hother
    have hother2 : other ∈ List.insertionSort (distGE coord) catalog :=
      hperm.mem_iff.mpr hother
    rcases sorted_getLast?_or _ hsorted other hother2 _ hlast with heq | hrel
    · rw [heq]
    · exact hrel
  obtain ⟨best, hbest, hbmem, hbmin⟩ := specResolve_min coord catalog hne
  refine ⟨_, hmemcat, ?_, hmin, best, hbest, ?_⟩
  · rw [resolveClosestRun, hlast]
    rfl
  · exact le_antisymm (hmin best hbmem) (hbmin _ hmemcat)

/-- Witness for claim C5: a concrete two-row catalog, coordinate (0, 0);
row B at squared distance 2 is closer than row A at squared distance 8. -/
theorem resolve_descending_sort_is_min_witness :
    ([("A", [2, 2]), ("B", [1, 1])] :
      List (String × List ℚ)) ≠ [] ∧
    ∃ row, row ∈ ([("A", [2, 2]), ("B", [1, 1])] :
        List (String × List ℚ)) ∧
      resolveClosestRun [0, 0] [("A", [2, 2]), ("B", [1, 1])] =
        some row.1 ∧
      (∀ other ∈ ([("A", [2, 2]), ("B", [1, 1])] :
          List (String × List ℚ)),
        sqDist [0, 0] row.2 ≤ sqDist [0, 0] other.2) ∧
      ∃ best, specResolve [0, 0] [("A", [2, 2]), ("B", [1, 1])] =
          some best ∧
        sqDist [0, 0] row.2 = sqDist [0, 0] best.2 :=
  ⟨by simp,
    resolve_descending_sort_is_min [0, 0] [("A", [2, 2]), ("B", [1, 1])]
      (by simp)⟩

/-- Claim C8: run resolution fails exactly when the catalog is empty (the
last-row access of the descending sort has no row to return), and returns
an identifier on every non-empty catalog. -/
theorem resolve_none_iff_empty (coord : List ℚ)
    (catalog : List (String × List ℚ)) :
    resolveClosestRun coord catalog = none ↔ catalog = [] := by
  rw [resolveClosestRun, Option.map_eq_none', List.getLast?_eq_none_iff]
  constructor
  · intro h
    have hperm := List.perm_insertionSort (distGE coord) catalog
    rw [h] at hperm
    exact hperm.symm.eq_nil
  · intro h
    rw [h]
    rfl

/-- Claim C6: round trip of the coordinate transforms.  For every parameter
vector whose values on the log-transformed dimensions are positive,
applying TOLOG (base-10 logarithm on the LOGKEYS dimensions) and then TOLIN
(10 to the value, rounded to 2 decimal digits) gives back a vector with the
same keys whose log-dimension values are within 0.01 of the originals and
whose other dimensions are exactly unchanged. -/
theorem tolog_tolin_roundtrip (binary : List (String × ℝ))
    (hpos : ∀ kv ∈ binary, kv.1 ∈ LOGKEYS → 0 < kv.2) :
    List.Forall₂ (fun kv kv2 => kv2.1 = kv.1 ∧
        (kv.1 ∈ LOGKEYS → |kv2.2 - kv.2| ≤ 1 / 100) ∧
        (kv.1 ∉ LOGKEYS → kv2.2 = kv.2))
      binary (TOLIN (TOLOG binary)) := by
  rw [TOLIN, TOLOG, List.map_map, List.forall₂_map_right_iff,
    List.forall₂_same]
  intro kv hkv
  by_cases hk : kv.1 ∈ LOGKEYS
  · simp only [Function.comp_apply, if_pos hk]
    refine ⟨by simp, fun _ => ?_, fun hn => absurd hk hn⟩
    have hv := hpos kv hkv hk
    rw [Real.rpow_logb (by norm_num) (by norm_num) hv, round2]
    have hsplit : ((round (100 * kv.2) : ℤ) : ℝ) / 100 - kv.2 =
        (((round (100 * kv.2) : ℤ) : ℝ) - 100 * kv.2) / 100 := by
      ring
    rw [hsplit, abs_div, abs_of_pos (by norm_num : (0 : ℝ) < 100)]
    have hround : |100 * kv.2 - (round (100 * kv.2) : ℤ)| ≤ 1 / 2 :=
      abs_sub_round (100 * kv.2)
    rw [abs_sub_comm] at hround
    linarith
  · simp only [Function.comp_apply, if_neg hk]
    exact ⟨by simp, fun h => absurd h hk, fun _ => by simp⟩

/-- Witness for claim C6: the vector with log-dimension m1i = 100 and
untransformed dimension ei = 1/2. -/
theorem tolog_tolin_roundtrip_witness :
    (∀ kv ∈ ([("m1i", (100 : ℝ)), ("ei", 1 / 2)] : List (String × ℝ)),
      kv.1 ∈ LOGKEYS → 0 < kv.2) ∧
    List.Forall₂ (fun kv kv2 => kv2.1 = kv.1 ∧
        (kv.1 ∈ LOGKEYS → |kv2.2 - kv.2| ≤ 1 / 100) ∧
        (kv.1 ∉ LOGKEYS → kv2.2 = kv.2))
      ([("m1i", (100 : ℝ)), ("ei", 1 / 2)] : List (String × ℝ))
      (TOLIN (TOLOG [("m1i", (100 : ℝ)), ("ei", 1 / 2)])) :=
  ⟨by norm_num,
    tolog_tolin_roundtrip [("m1i", (100 : ℝ)), ("ei", 1 / 2)]
      (by norm_num)⟩

/-- Counterexample to claim C7 as stated: TOLOG applied to a vector whose
log dimension m1i carries the non-positive value -1 does NOT fail; np.log10
returns nan and the transform returns the vector containing it. -/
theorem tolog_no_raise_counterexample :
    TOLOGnp [("m1i", -1)] = [("m1i", NpReal.nan)] := by
  norm_num [TOLOGnp, npLog10, LOGKEYS]

/-- Claim C7, amended: the transform to comparison space performs no
validation and never raises; on a log-transformed dimension np.log10
yields nan for a negative value and negative infinity for zero, and TOLOG
returns the vector containing these IEEE special values. -/
theorem tolog_no_raise (binary : List (String × ℝ)) :
    (TOLOGnp binary).length = binary.length ∧
    ∀ i, i < binary.length →
      (binary.getD i ("", 0)).1 ∈ LOGKEYS →
      ((binary.getD i ("", 0)).2 < 0 →
        (TOLOGnp binary).getD i ("", NpReal.nan) =
          ((binary.getD i ("", 0)).1, NpReal.nan)) ∧
      ((binary.getD i ("", 0)).2 = 0 →
        (TOLOGnp binary).getD i ("", NpReal.nan) =
          ((binary.getD i ("", 0)).1, NpReal.neginf)) := by
  refine ⟨by simp [TOLOGnp], ?_⟩
  intro i hi hk
  have hi2 : i < (TOLOGnp binary).length := by simpa [TOLOGnp] using hi
  have hgd : (TOLOGnp binary).getD i ("", NpReal.nan) =
      (if (binary.getD i ("", 0)).1 ∈ LOGKEYS then
        ((binary.getD i ("", 0)).1, npLog10 (binary.getD i ("", 0)).2)
      else ((binary.getD i ("", 0)).1,
        NpReal.val (binary.getD i ("", 0)).2)) := by
    rw [List.getD_eq_getElem _ _ hi2, List.getD_eq_getElem _ _ hi]
    simp [TOLOGnp]
  rw [hgd, if_pos hk]
  constructor
  · intro hneg
    rw [npLog10, if_neg (by linarith), if_neg (by linarith)]
  · intro hzero
    rw [npLog10, if_neg (by rw [hzero]; exact lt_irrefl 0), if_pos hzero]

/-- Witness for (amended) claim C7: the vector with m1i = -1 (negative,
becomes nan) and m2i = 0 (zero, becomes negative infinity). -/
theorem tolog_no_raise_witness :
    (TOLOGnp [("m1i", (-1 : ℝ)), ("m2i", 0)]).getD 0 ("", NpReal.nan) =
      ("m1i", NpReal.nan) ∧
    (TOLOGnp [("m1i", (-1 : ℝ)), ("m2i", 0)]).getD 1 ("", NpReal.nan) =
      ("m2i", NpReal.neginf) := by
  have h0 := ((tolog_no_raise [("m1i", (-1 : ℝ)), ("m2i", 0)]).2 0
    (by norm_num) (by simp [LOGKEYS])).1 (by norm_num)
  have h1 := ((tolog_no_raise [("m1i", (-1 : ℝ)), ("m2i", 0)]).2 1
    (by norm_num) (by simp [LOGKEYS])).2 (by norm_num)
  constructor
  · simpa using h0
  · simpa using h1

end Psyst
